import Mathlib

/-!
Shallow embedding of `nanobot/providers/custom_provider.py` — the response
aggregation engine of the `CustomProvider` class: the stream aggregator
(`_consume_stream`), the non-stream parser (`_parse`), the tool-call
assembler (the lenient JSON decode of accumulated argument strings) and the
error boundary in `chat`.

External collaborators (the OpenAI client and the `json_repair` library) are
not part of the repository; they are modelled at their interface boundary,
following the spec where the repository gives no code for them.
-/

namespace Nanobot

/-- A JSON value, the structured result of decoding a tool-call argument
string.  Numbers are modelled as integers (the arguments exercised by the
engine's contract are integer-valued). -/
inductive Json where
  | null
  | bool (b : Bool)
  | num (n : Int)
  | str (s : String)
  | arr (elems : List Json)
  | obj (fields : List (String × Json))
deriving Repr, Inhabited

/-- JSON whitespace. -/
def isWs (c : Char) : Bool :=
  c = ' ' || c = '\n' || c = '\t' || c = '\r'

/-- Drop leading JSON whitespace. -/
def skipWs : List Char → List Char
  | [] => []
  | c :: cs => if isWs c then skipWs cs else c :: cs

/-- Translate a character appearing after a backslash in a JSON string
literal. -/
def escChar (c : Char) : Char :=
  if c = 'n' then '\n' else if c = 't' then '\t' else if c = 'r' then '\r' else c

/-- Parse the body of a JSON string literal (the opening quote already
consumed), returning the decoded text and the remaining input. -/
def parseStringBody : List Char → Option (String × List Char)
  | [] => none
  | '"' :: rest => some ("", rest)
  | '\\' :: [] => none
  | '\\' :: c :: rest =>
    (parseStringBody rest).map (fun p => (String.singleton (escChar c) ++ p.1, p.2))
  | c :: rest =>
    (parseStringBody rest).map (fun p => (String.singleton c ++ p.1, p.2))

/-- Parse a run of decimal digits into a number (at least one digit). -/
def parseDigitsAux (acc : Nat) (seen : Bool) : List Char → Option (Nat × List Char)
  | [] => if seen then some (acc, []) else none
  | c :: cs =>
    if c.isDigit then parseDigitsAux (acc * 10 + (c.toNat - '0'.toNat)) true cs
    else if seen then some (acc, c :: cs) else none

def parseDigits (cs : List Char) : Option (Nat × List Char) :=
  parseDigitsAux 0 false cs

mutual

/-- Strict recursive-descent JSON value parser (fuel-indexed). -/
def parseValue : Nat → List Char → Option (Json × List Char)
  | 0, _ => none
  | Nat.succ fuel, cs =>
    match skipWs cs with
    | '{' :: rest =>
      (match skipWs rest with
       | '}' :: rest2 => some (Json.obj [], rest2)
       | rest2 => (parseMembers fuel rest2).map (fun p => (Json.obj p.1, p.2)))
    | '[' :: rest =>
      (match skipWs rest with
       | ']' :: rest2 => some (Json.arr [], rest2)
       | rest2 => (parseElems fuel rest2).map (fun p => (Json.arr p.1, p.2)))
    | '"' :: rest => (parseStringBody rest).map (fun p => (Json.str p.1, p.2))
    | 't' :: 'r' :: 'u' :: 'e' :: rest => some (Json.bool true, rest)
    | 'f' :: 'a' :: 'l' :: 's' :: 'e' :: rest => some (Json.bool false, rest)
    | 'n' :: 'u' :: 'l' :: 'l' :: rest => some (Json.null, rest)
    | '-' :: rest => (parseDigits rest).map (fun p => (Json.num (-(p.1 : Int)), p.2))
    | other => (parseDigits other).map (fun p => (Json.num (p.1 : Int), p.2))

/-- Parse the members of a JSON object after the opening brace (at least one
member), consuming the closing brace. -/
def parseMembers : Nat → List Char → Option (List (String × Json) × List Char)
  | 0, _ => none
  | Nat.succ fuel, cs =>
    match skipWs cs with
    | '"' :: rest =>
      (match parseStringBody rest with
       | none => none
       | some (key, r1) =>
         match skipWs r1 with
         | ':' :: r2 =>
           (match parseValue fuel r2 with
            | none => none
            | some (v, r3) =>
              match skipWs r3 with
              | ',' :: r4 => (parseMembers fuel r4).map (fun p => ((key, v) :: p.1, p.2))
              | '}' :: r4 => some ([(key, v)], r4)
              | _ => none)
         | _ => none)
    | _ => none

/-- Parse the elements of a JSON array after the opening bracket (at least
one element), consuming the closing bracket. -/
def parseElems : Nat → List Char → Option (List Json × List Char)
  | 0, _ => none
  | Nat.succ fuel, cs =>
    match parseValue fuel cs with
    | none => none
    | some (v, r1) =>
      match skipWs r1 with
      | ',' :: r2 => (parseElems fuel r2).map (fun p => (v :: p.1, p.2))
      | ']' :: r2 => some ([v], r2)
      | _ => none

end

/-- Strict JSON decode of a whole string: the model of `json.loads` on
well-formed input (the "strict structured decode" of the spec). -/
def Json.parse (s : String) : Option Json :=
  match parseValue (s.length + 1) s.toList with
  | some (v, rest) => if (skipWs rest).isEmpty then some v else none
  | none => none

/-- Scanner state used by the structural-repair pass: the pending closing
delimiters (innermost first) and whether the scan position is inside a string
literal (and right after a backslash). -/
structure ScanState where
  stack : List Char
  inString : Bool
  escaped : Bool
deriving Repr, DecidableEq

def scanStep (st : ScanState) (c : Char) : ScanState :=
  if st.inString then
    if st.escaped then { st with escaped := false }
    else if c = '\\' then { st with escaped := true }
    else if c = '"' then { st with inString := false }
    else st
  else if c = '"' then { st with inString := true }
  else if c = '{' then { st with stack := '}' :: st.stack }
  else if c = '[' then { st with stack := ']' :: st.stack }
  else if c = '}' || c = ']' then { st with stack := st.stack.tail }
  else st

/-- The closing delimiters a truncated JSON document still needs. -/
def neededClosers (s : String) : String :=
  let st := s.toList.foldl scanStep ⟨[], false, false⟩
  String.mk ((if st.inString then ['"'] else []) ++ st.stack)

/-- Drop one trailing comma (possibly followed by whitespace). -/
def stripTrailingComma (s : String) : String :=
  match (s.toList.reverse.dropWhile isWs) with
  | ',' :: rest => String.mk rest.reverse
  | _ => s

/-- Modelled from the spec: the structural-repair step of the lenient decoder
(`json_repair`, an external library with no code in the repository) — "a
repair-tolerant decode that can recover a best-effort structure from
near-valid JSON (missing closing brackets, trailing commas, unquoted
fragments at truncation boundaries)".  The repair closes unterminated
strings/arrays/objects and strips a trailing comma, then retries the strict
decode; `none` means even the lenient path recovers no structure. -/
def repairAttempt (s : String) : Option Json :=
  let t := stripTrailingComma s
  Json.parse (t ++ neededClosers t)

/-- Modelled from the spec: `json_repair.loads` — the fallback ladder
"strict decode → structural repair → empty mapping" of §4.3. -/
def json_repair_loads (s : String) : Json :=
  match Json.parse s with
  | some v => v
  | none =>
    match repairAttempt s with
    | some v => v
    | none => Json.obj []

/-! ## Wire-level chunk / completion shapes (§6 of the spec)

Optional string fields are `Option String`; Python truthiness (`if field:`)
distinguishes `none`/empty string from a non-empty string. -/

/-- Token accounting reported by the completion source
(`usage.prompt_tokens`, `usage.completion_tokens`, `usage.total_tokens`). -/
structure Usage where
  prompt_tokens : Nat
  completion_tokens : Nat
  total_tokens : Nat
deriving Repr, DecidableEq

/-- The `function` part of one streamed tool-call fragment delta. -/
structure FunctionDelta where
  name : Option String
  arguments : Option String
deriving Repr, DecidableEq

/-- One streamed tool-call fragment delta:
`{index: int, id?: string, function?: {name?, arguments?}}`. -/
structure ToolCallDelta where
  index : Nat
  id : Option String
  function : Option FunctionDelta
deriving Repr, DecidableEq

/-- The incremental `delta` of one streaming choice. -/
structure Delta where
  content : Option String
  reasoning_content : Option String
  tool_calls : List ToolCallDelta
deriving Repr, DecidableEq

/-- One choice of a streaming chunk (`delta` is `None` in Python when the
field is absent). -/
structure StreamChoice where
  finish_reason : Option String
  delta : Option Delta
deriving Repr, DecidableEq

/-- One streaming chunk: a list of choices plus an optional top-level
usage object. -/
structure Chunk where
  choices : List StreamChoice
  usage : Option Usage
deriving Repr, DecidableEq

/-! ## Output shape -/

/-- One fully reconstructed tool-call invocation (`ToolCallRequest` of
`nanobot.providers.base`; its three fields are the ones `custom_provider.py`
constructs). -/
structure ToolCallRequest where
  id : String
  name : String
  arguments : Json
deriving Repr

/-- The normalized response (`LLMResponse` of `nanobot.providers.base`).
`usage` is `none` when the Python dict stays `{}`, `some u` when the code
stores the three-field token dict. -/
structure LLMResponse where
  content : Option String
  tool_calls : List ToolCallRequest
  finish_reason : String
  usage : Option Usage
  reasoning_content : Option String
deriving Repr

/-! ## Stream aggregator (`CustomProvider._consume_stream`) -/

/-- One accumulating tool-call fragment:
`{"id": "", "name": "", "arguments": ""}` at creation. -/
structure Fragment where
  id : String
  name : String
  arguments : String
deriving Repr, DecidableEq

def Fragment.init : Fragment := ⟨"", "", ""⟩

/-- The aggregator's mutable state: `content_parts`,
`tool_calls_by_index` (a Python dict in insertion order), `finish_reason`,
`usage` and `reasoning_parts`. -/
structure StreamState where
  content_parts : List String
  tool_calls_by_index : List (Nat × Fragment)
  finish_reason : String
  usage : Option Usage
  reasoning_parts : List String
deriving Repr

def initState : StreamState := ⟨[], [], "stop", none, []⟩

/-- First fragment stored under a key in the insertion-ordered dict. -/
def findFrag (i : Nat) : List (Nat × Fragment) → Option Fragment
  | [] => none
  | p :: ps => if p.1 = i then some p.2 else findFrag i ps

/-- The body of the inner `for tc_delta in delta.tool_calls` loop applied to
the fragment at `tc_delta.index`: overwrite `id`/`name` when a truthy value
is supplied, append a truthy argument substring. -/
def applyToFragment (tc : ToolCallDelta) (fr : Fragment) : Fragment :=
  let fr1 := match tc.id with
    | some s => if s = "" then fr else { fr with id := s }
    | none => fr
  match tc.function with
  | none => fr1
  | some f =>
    let fr2 := match f.name with
      | some s => if s = "" then fr1 else { fr1 with name := s }
      | none => fr1
    match f.arguments with
    | some s => if s = "" then fr2 else { fr2 with arguments := fr2.arguments ++ s }
    | none => fr2

/-- `if idx not in tool_calls_by_index: ... = {"id": "", "name": "", "arguments": ""}`
then mutate the entry in place.  A Python dict keeps insertion order, so a
fresh key is appended at the end. -/
def updateMap (m : List (Nat × Fragment)) (tc : ToolCallDelta) : List (Nat × Fragment) :=
  match findFrag tc.index m with
  | some _ => m.map (fun p => if p.1 = tc.index then (p.1, applyToFragment tc p.2) else p)
  | none => m ++ [(tc.index, applyToFragment tc Fragment.init)]

/-- Processing of one chunk by the `async for` loop body. -/
def processChunk (st : StreamState) (c : Chunk) : StreamState :=
  if c.choices.isEmpty && c.usage.isSome then
    { st with usage := c.usage }
  else
    match c.choices with
    | [] => st
    | choice :: _ =>
      let st1 := match choice.finish_reason with
        | some fr => if fr = "" then st else { st with finish_reason := fr }
        | none => st
      match choice.delta with
      | none => st1
      | some d =>
        let st2 := match d.content with
          | some s => if s = "" then st1 else { st1 with content_parts := st1.content_parts ++ [s] }
          | none => st1
        let st3 := match d.reasoning_content with
          | some s => if s = "" then st2 else { st2 with reasoning_parts := st2.reasoning_parts ++ [s] }
          | none => st2
        d.tool_calls.foldl
          (fun s tc => { s with tool_calls_by_index := updateMap s.tool_calls_by_index tc }) st3

/-- `sorted(tool_calls_by_index.items())` — the dict items sorted by key
(keys are unique, so sorting by key is the Python tuple order). -/
def sortFragments (m : List (Nat × Fragment)) : List (Nat × Fragment) :=
  List.insertionSort (fun p q => p.1 ≤ q.1) m

/-- `json_repair.loads(tc["arguments"]) if tc["arguments"] else {}` — the
tool-call assembler's decode of one accumulated argument string. -/
def decodeArguments (s : String) : Json :=
  if s = "" then Json.obj [] else json_repair_loads s

/-- Finalization of one sorted fragment into a `ToolCallRequest`. -/
def mkToolCall (p : Nat × Fragment) : ToolCallRequest :=
  { id := p.2.id, name := p.2.name, arguments := decodeArguments p.2.arguments }

/-- `"".join(parts) or None`. -/
def emptyToNone (s : String) : Option String :=
  if s = "" then none else some s

/-- Right-fold concatenation of the accumulated parts; `"".join` in Python. -/
def concatStrs : List String → String
  | [] => ""
  | s :: ss => s ++ concatStrs ss

/-- The state after the whole chunk sequence has been consumed. -/
def streamState (chunks : List Chunk) : StreamState :=
  chunks.foldl processChunk initState

/-- Building the final `LLMResponse` from the exhausted aggregator state. -/
def finalizeState (st : StreamState) : LLMResponse :=
  { content := emptyToNone (concatStrs st.content_parts)
    tool_calls := (sortFragments st.tool_calls_by_index).map mkToolCall
    finish_reason := st.finish_reason
    usage := st.usage
    reasoning_content := emptyToNone (concatStrs st.reasoning_parts) }

/-- `CustomProvider._consume_stream` on a (successfully exhausted) chunk
sequence. -/
def consumeStream (chunks : List Chunk) : LLMResponse :=
  finalizeState (streamState chunks)

/-! ## Non-stream parser (`CustomProvider._parse`) -/

/-- `tc.function.arguments` of a non-stream tool call: the Python value is
either a string (the usual wire form) or already a structured value
(`isinstance(tc.function.arguments, str)` distinguishes the two). -/
inductive ArgsField where
  | raw (s : String)
  | parsed (v : Json)
deriving Repr

structure MsgFunction where
  name : String
  arguments : ArgsField
deriving Repr

structure MsgToolCall where
  id : String
  function : MsgFunction
deriving Repr

/-- The message of the first non-stream choice (`msg.tool_calls` is `None`
or a list; `reasoning_content` is read with `getattr(..., None)`). -/
structure Message where
  content : Option String
  tool_calls : Option (List MsgToolCall)
  reasoning_content : Option String
deriving Repr

structure NChoice where
  message : Message
  finish_reason : Option String
deriving Repr

/-- One complete non-stream completion object. -/
structure Completion where
  choices : List NChoice
  usage : Option Usage
deriving Repr

/-- Decode of one non-stream tool call. -/
def parseMsgToolCall (tc : MsgToolCall) : ToolCallRequest :=
  { id := tc.id
    name := tc.function.name
    arguments := match tc.function.arguments with
      | .raw s => json_repair_loads s
      | .parsed v => v }

/-- `CustomProvider._parse`.  `response.choices[0]` on an empty list raises
`IndexError`, which escapes `_parse` (and is caught by `chat`); the
exceptional outcome is the `Except.error` branch. -/
def parseCompletion (r : Completion) : Except String LLMResponse :=
  match r.choices with
  | [] => Except.error "list index out of range"
  | choice :: _ =>
    let msg := choice.message
    Except.ok
      { content := msg.content
        tool_calls := (msg.tool_calls.getD []).map parseMsgToolCall
        finish_reason := match choice.finish_reason with
          | some fr => if fr = "" then "stop" else fr
          | none => "stop"
        usage := r.usage
        reasoning_content := match msg.reasoning_content with
          | some s => if s = "" then none else some s
          | none => none }

/-! ## Error boundary (`CustomProvider.chat`) -/

/-- What `await self._client.chat.completions.create(**kwargs)` and the
subsequent consumption can deliver: a transport/protocol failure, a complete
completion object, or a stream whose iteration yields chunks until it either
ends or raises.  The transport is an external collaborator; this type is its
interface boundary. -/
inductive SourceOutcome where
  | failure (msg : String)
  | completion (r : Completion)
  | stream (events : List (Except String Chunk))
deriving Repr

/-- Iterating the stream: each event is a chunk or a failure raised by the
async iterator; a failure aborts the `async for` immediately. -/
def runEvents : StreamState → List (Except String Chunk) → Except String StreamState
  | st, [] => Except.ok st
  | _, Except.error e :: _ => Except.error e
  | st, Except.ok c :: rest => runEvents (processChunk st c) rest

/-- `_consume_stream` over a fallible chunk stream. -/
def consumeStreamE (events : List (Except String Chunk)) : Except String LLMResponse :=
  (runEvents initState events).map finalizeState

/-- Modelled from the spec: the `LLMResponse` built in the `except` clause,
`LLMResponse(content=f"Error: \x7be\x7d", finish_reason="error")` — the
remaining fields keep the dataclass defaults of `nanobot.providers.base`
(code not in the repository): empty tool calls, absent usage, absent
reasoning (§3: "empty sequence if none", "absent fields", "absent if never
populated"). -/
def errorResponse (e : String) : LLMResponse :=
  { content := some ("Error: " ++ e)
    tool_calls := []
    finish_reason := "error"
    usage := none
    reasoning_content := none }

/-- `CustomProvider.chat`: run the completion source, parse or aggregate,
and convert any raised failure into an error response.  The function is
total: no exception propagates to the caller. -/
def chat (src : SourceOutcome) : LLMResponse :=
  match src with
  | .failure e => errorResponse e
  | .completion r =>
    match parseCompletion r with
    | .ok resp => resp
    | .error e => errorResponse e
  | .stream evs =>
    match consumeStreamE evs with
    | .ok resp => resp
    | .error e => errorResponse e

/-- The source or a parsing path raises a failure: the transport call itself
fails, the non-stream object has no choices (so `response.choices[0]`
raises), or the chunk iteration raises mid-stream. -/
def sourceRaises : SourceOutcome → Bool
  | .failure _ => true
  | .completion r => r.choices.isEmpty
  | .stream evs => evs.any (fun ev => !ev.isOk)

/-! ## Per-chunk observations (the spec's view of one chunk)

These read off, directly from a chunk's shape, what one loop iteration
contributes to each accumulator. -/

/-- The content substring the chunk's first choice's delta carries
(`""` when there is none). -/
def chunkContentStr (c : Chunk) : String :=
  match c.choices with
  | [] => ""
  | ch :: _ =>
    match ch.delta with
    | none => ""
    | some d => d.content.getD ""

/-- The reasoning substring the chunk's first choice's delta carries. -/
def chunkReasoningStr (c : Chunk) : String :=
  match c.choices with
  | [] => ""
  | ch :: _ =>
    match ch.delta with
    | none => ""
    | some d => d.reasoning_content.getD ""

/-- The non-empty finish reason the chunk's first choice carries, if any. -/
def chunkFinish (c : Chunk) : Option String :=
  match c.choices with
  | [] => none
  | ch :: _ =>
    match ch.finish_reason with
    | some s => if s = "" then none else some s
    | none => none

/-- The tool-call fragment deltas the chunk's first choice's delta carries. -/
def chunkTCDeltas (c : Chunk) : List ToolCallDelta :=
  match c.choices with
  | [] => []
  | ch :: _ =>
    match ch.delta with
    | none => []
    | some d => d.tool_calls

/-- All tool-call fragment deltas of a chunk sequence, in arrival order. -/
def streamTCDeltas (chunks : List Chunk) : List ToolCallDelta :=
  (chunks.map chunkTCDeltas).flatten

/-- The list (empty or singleton) actually appended to the content buffer. -/
def contentAppend (c : Chunk) : List String :=
  if chunkContentStr c = "" then [] else [chunkContentStr c]

def reasoningAppend (c : Chunk) : List String :=
  if chunkReasoningStr c = "" then [] else [chunkReasoningStr c]

/-! ## Delta bookkeeping and ordering helpers -/

/-- Sequential application of fragment deltas to one fragment record. -/
def applyDeltas (ds : List ToolCallDelta) (fr : Fragment) : Fragment :=
  ds.foldl (fun fr tc => applyToFragment tc fr) fr

/-- The deltas aimed at index `i`, in arrival order. -/
def deltasFor (i : Nat) (ds : List ToolCallDelta) : List ToolCallDelta :=
  ds.filter (fun tc => tc.index = i)

/-- The argument substring one delta appends (`""` when none). -/
def tcArgStr (tc : ToolCallDelta) : String :=
  match tc.function with
  | none => ""
  | some f => f.arguments.getD ""

/-- The truthy id one delta supplies, if any. -/
def tcIdUpdate (tc : ToolCallDelta) : Option String :=
  match tc.id with
  | some s => if s = "" then none else some s
  | none => none

/-- The truthy name one delta supplies, if any. -/
def tcNameUpdate (tc : ToolCallDelta) : Option String :=
  match tc.function with
  | none => none
  | some f =>
    match f.name with
    | some s => if s = "" then none else some s
    | none => none

/-- The dict's keys in insertion order. -/
def fragKeys (m : List (Nat × Fragment)) : List Nat := m.map Prod.fst

instance : IsTotal (Nat × Fragment) (fun p q => p.1 ≤ q.1) :=
  ⟨fun a b => Nat.le_total a.1 b.1⟩

instance : IsTrans (Nat × Fragment) (fun p q => p.1 ≤ q.1) :=
  ⟨fun _ _ _ hab hbc => Nat.le_trans hab hbc⟩

/-- A one-choice chunk whose delta carries a single tool-call fragment:
the wire shape used to exercise the aggregator on concrete inputs. -/
def argChunk (idx : Nat) (tid : Option String) (nm : Option String) (args : String) : Chunk :=
  { choices := [{ finish_reason := none
                  delta := some { content := none
                                  reasoning_content := none
                                  tool_calls := [{ index := idx
                                                   id := tid
                                                   function := some { name := nm
                                                                      arguments := some args } }] } }]
    usage := none }

/-- `\x7b"a":` / ` 1,"b":` / ` 2\x7d` — one argument string split across
three chunk boundaries, all aimed at fragment index 0. -/
def splitArgsChunks : List Chunk :=
  [argChunk 0 (some "call_0") (some "f") "\x7b\"a\":",
   argChunk 0 none none " 1,\"b\":",
   argChunk 0 none none " 2\x7d"]

/-- A single chunk whose accumulated argument string `\x7b"a":` is
irrecoverably malformed. -/
def malformedArgsChunks : List Chunk :=
  [argChunk 0 (some "call_1") (some "f") "\x7b\"a\":"]

/-- A single fragment at index 5 that never receives an id or a name. -/
def anonymousCallChunks : List Chunk :=
  [argChunk 5 none none "\x7b\x7d"]

/-! ## Characterization of one loop iteration -/

theorem tcFold_fields (ds : List ToolCallDelta) (st : StreamState) :
    ds.foldl (fun s tc => { s with tool_calls_by_index := updateMap s.tool_calls_by_index tc }) st
      = { st with tool_calls_by_index := ds.foldl updateMap st.tool_calls_by_index } := by
  induction ds generalizing st with
  | nil => rfl
  | cons d ds ih => simp [List.foldl_cons, ih]

/-- One pass of the `async for` body, expressed field by field through the
per-chunk observation functions. -/
theorem processChunk_eq (st : StreamState) (c : Chunk) :
    processChunk st c =
      if c.choices.isEmpty && c.usage.isSome then { st with usage := c.usage }
      else
        { content_parts := st.content_parts ++ contentAppend c
          tool_calls_by_index := (chunkTCDeltas c).foldl updateMap st.tool_calls_by_index
          finish_reason := (chunkFinish c).getD st.finish_reason
          usage := st.usage
          reasoning_parts := st.reasoning_parts ++ reasoningAppend c } := by
  rcases st with ⟨cp, tci, fr0, us, rp⟩
  rcases c with ⟨choices, usage⟩
  rcases choices with _ | ⟨⟨fin, delta⟩, rest⟩
  · rcases usage with _ | u <;>
      simp [processChunk, chunkContentStr, chunkReasoningStr, chunkFinish, chunkTCDeltas,
        contentAppend, reasoningAppend]
  · rcases delta with _ | ⟨cont, rc, tcs⟩
    · rcases fin with _ | fs
      · simp [processChunk, chunkContentStr, chunkReasoningStr, chunkFinish, chunkTCDeltas,
          contentAppend, reasoningAppend]
      · by_cases hfs : fs = "" <;>
          simp [processChunk, chunkContentStr, chunkReasoningStr, chunkFinish, chunkTCDeltas,
            contentAppend, reasoningAppend, hfs]
    · rcases fin with _ | fs <;> rcases cont with _ | cs <;> rcases rc with _ | rs <;>
        simp only [processChunk, chunkContentStr, chunkReasoningStr, chunkFinish, chunkTCDeltas,
          contentAppend, reasoningAppend, tcFold_fields, List.isEmpty_cons, Bool.false_and,
          Bool.if_false_left, Option.getD_some, Option.getD_none, if_false] <;>
        split_ifs <;>
        simp_all [tcFold_fields]


/-! ## Whole-stream fold lemmas -/

theorem no_choices_obs (c : Chunk) (h : c.choices = []) :
    chunkContentStr c = "" ∧ chunkReasoningStr c = "" ∧ chunkFinish c = none ∧
      chunkTCDeltas c = [] := by
  rcases c with ⟨choices, usage⟩
  cases h
  simp [chunkContentStr, chunkReasoningStr, chunkFinish, chunkTCDeltas]

theorem foldl_content_parts (chunks : List Chunk) :
    ∀ st : StreamState, (chunks.foldl processChunk st).content_parts
      = st.content_parts ++ (chunks.map contentAppend).flatten := by
  induction chunks with
  | nil => intro st; simp
  | cons c rest ih =>
    intro st
    rw [List.foldl_cons, ih, processChunk_eq]
    by_cases h : c.choices.isEmpty && c.usage.isSome
    · rw [if_pos h]
      have hc : c.choices = [] := List.isEmpty_iff.mp (Bool.and_elim_left h)
      have := (no_choices_obs c hc).1
      simp [contentAppend, this]
    · rw [if_neg h]; simp

theorem foldl_reasoning_parts (chunks : List Chunk) :
    ∀ st : StreamState, (chunks.foldl processChunk st).reasoning_parts
      = st.reasoning_parts ++ (chunks.map reasoningAppend).flatten := by
  induction chunks with
  | nil => intro st; simp
  | cons c rest ih =>
    intro st
    rw [List.foldl_cons, ih, processChunk_eq]
    by_cases h : c.choices.isEmpty && c.usage.isSome
    · rw [if_pos h]
      have hc : c.choices = [] := List.isEmpty_iff.mp (Bool.and_elim_left h)
      have := (no_choices_obs c hc).2.1
      simp [reasoningAppend, this]
    · rw [if_neg h]; simp

theorem foldl_finish_reason (chunks : List Chunk) :
    ∀ st : StreamState, (chunks.foldl processChunk st).finish_reason
      = (chunks.filterMap chunkFinish).getLastD st.finish_reason := by
  induction chunks with
  | nil => intro st; simp
  | cons c rest ih =>
    intro st
    rw [List.foldl_cons, ih, processChunk_eq, List.filterMap_cons]
    by_cases h : c.choices.isEmpty && c.usage.isSome
    · rw [if_pos h]
      have hc : c.choices = [] := List.isEmpty_iff.mp (Bool.and_elim_left h)
      have := (no_choices_obs c hc).2.2.1
      simp [this]
    · rw [if_neg h]
      cases hf : chunkFinish c with
      | none => simp [hf]
      | some v =>
        simp only [hf, Option.getD_some]
        rw [List.getLastD_cons]

theorem foldl_tcbi (chunks : List Chunk) :
    ∀ st : StreamState, (chunks.foldl processChunk st).tool_calls_by_index
      = (streamTCDeltas chunks).foldl updateMap st.tool_calls_by_index := by
  induction chunks with
  | nil => intro st; simp [streamTCDeltas]
  | cons c rest ih =>
    intro st
    rw [List.foldl_cons, ih, processChunk_eq]
    by_cases h : c.choices.isEmpty && c.usage.isSome
    · rw [if_pos h]
      have hc : c.choices = [] := List.isEmpty_iff.mp (Bool.and_elim_left h)
      have := (no_choices_obs c hc).2.2.2
      simp [streamTCDeltas, this]
    · rw [if_neg h]
      simp [streamTCDeltas, List.foldl_append]

theorem foldl_usage_of_none (chunks : List Chunk) (h : ∀ c ∈ chunks, c.usage = none) :
    ∀ st : StreamState, (chunks.foldl processChunk st).usage = st.usage := by
  induction chunks with
  | nil => intro st; rfl
  | cons c rest ih =>
    intro st
    have hc : c.usage = none := h c (List.mem_cons_self c rest)
    have hrest : ∀ c ∈ rest, c.usage = none := fun d hd => h d (List.mem_cons_of_mem c hd)
    rw [List.foldl_cons, ih hrest, processChunk_eq]
    simp [hc]

/-! ## The fragment map under a flat list of tool-call deltas -/

theorem applyToFragment_eq (tc : ToolCallDelta) (fr : Fragment) :
    applyToFragment tc fr =
      { id := (tcIdUpdate tc).getD fr.id
        name := (tcNameUpdate tc).getD fr.name
        arguments := fr.arguments ++ tcArgStr tc } := by
  rcases fr with ⟨i0, n0, a0⟩
  rcases tc with ⟨idx, tid, fn⟩
  rcases fn with _ | ⟨fname, fargs⟩
  · rcases tid with _ | s
    · simp [applyToFragment, tcIdUpdate, tcNameUpdate, tcArgStr, String.append_empty]
    · by_cases hs : s = "" <;>
        simp [applyToFragment, tcIdUpdate, tcNameUpdate, tcArgStr, String.append_empty, hs]
  · rcases tid with _ | s <;> rcases fname with _ | ns <;> rcases fargs with _ | as <;>
      simp only [applyToFragment, tcIdUpdate, tcNameUpdate, tcArgStr, Option.getD_some,
        Option.getD_none] <;>
      (try split_ifs) <;>
      simp_all [String.append_empty]

theorem applyDeltas_arguments (ds : List ToolCallDelta) :
    ∀ fr : Fragment, (applyDeltas ds fr).arguments
      = fr.arguments ++ concatStrs (ds.map tcArgStr) := by
  induction ds with
  | nil => intro fr; simp [applyDeltas, concatStrs, String.append_empty]
  | cons tc ds ih =>
    intro fr
    rw [applyDeltas, List.foldl_cons]
    show (applyDeltas ds (applyToFragment tc fr)).arguments = _
    rw [ih, applyToFragment_eq]
    simp [concatStrs, String.append_assoc]

theorem applyDeltas_id (ds : List ToolCallDelta) :
    ∀ fr : Fragment, (applyDeltas ds fr).id = (ds.filterMap tcIdUpdate).getLastD fr.id := by
  induction ds with
  | nil => intro fr; simp [applyDeltas]
  | cons tc ds ih =>
    intro fr
    rw [applyDeltas, List.foldl_cons]
    show (applyDeltas ds (applyToFragment tc fr)).id = _
    rw [ih, applyToFragment_eq, List.filterMap_cons]
    cases h : tcIdUpdate tc with
    | none => simp [h]
    | some v =>
      simp only [h, Option.getD_some]
      rw [List.getLastD_cons]

theorem applyDeltas_name (ds : List ToolCallDelta) :
    ∀ fr : Fragment, (applyDeltas ds fr).name = (ds.filterMap tcNameUpdate).getLastD fr.name := by
  induction ds with
  | nil => intro fr; simp [applyDeltas]
  | cons tc ds ih =>
    intro fr
    rw [applyDeltas, List.foldl_cons]
    show (applyDeltas ds (applyToFragment tc fr)).name = _
    rw [ih, applyToFragment_eq, List.filterMap_cons]
    cases h : tcNameUpdate tc with
    | none => simp [h]
    | some v =>
      simp only [h, Option.getD_some]
      rw [List.getLastD_cons]

theorem findFrag_map_update (i j : Nat) (g : Fragment → Fragment) (m : List (Nat × Fragment)) :
    findFrag i (m.map (fun p => if p.1 = j then (p.1, g p.2) else p))
      = if i = j then (findFrag i m).map g else findFrag i m := by
  induction m with
  | nil => by_cases h : i = j <;> simp [findFrag, h]
  | cons p ps ih =>
    simp only [List.map_cons]
    by_cases hpj : p.1 = j
    · by_cases hpi : p.1 = i
      · have hij : i = j := by rw [← hpi, hpj]
        simp [findFrag, hpj, hpi, hij]
      · have hij : ¬ i = j := fun hh => hpi (by rw [hpj, ← hh])
        have hji : ¬ j = i := fun hh => hij hh.symm
        simp [findFrag, hpj, hpi, ih, hij, hji]
    · by_cases hpi : p.1 = i
      · have hij : ¬ i = j := fun hh => hpj (by rw [hpi, hh])
        simp [findFrag, hpj, hpi, hij]
      · simp [findFrag, hpj, hpi, ih]

theorem findFrag_append_of_some (i : Nat) (m l : List (Nat × Fragment)) (fr : Fragment)
    (h : findFrag i m = some fr) : findFrag i (m ++ l) = some fr := by
  induction m with
  | nil => simp [findFrag] at h
  | cons p ps ih =>
    by_cases hp : p.1 = i
    · simp [findFrag, hp] at h ⊢; exact h
    · simp [findFrag, hp] at h ⊢; exact ih h

theorem findFrag_append_of_none (i : Nat) (m l : List (Nat × Fragment))
    (h : findFrag i m = none) : findFrag i (m ++ l) = findFrag i l := by
  induction m with
  | nil => simp
  | cons p ps ih =>
    by_cases hp : p.1 = i
    · simp [findFrag, hp] at h
    · simp [findFrag, hp] at h ⊢; exact ih h

/-- Effect of one delta on the dict, observed through lookup. -/
theorem findFrag_updateMap (m : List (Nat × Fragment)) (tc : ToolCallDelta) (i : Nat) :
    findFrag i (updateMap m tc)
      = if tc.index = i then some (applyToFragment tc ((findFrag i m).getD Fragment.init))
        else findFrag i m := by
  unfold updateMap
  cases h : findFrag tc.index m with
  | some fr =>
    rw [findFrag_map_update]
    by_cases hij : i = tc.index
    · subst hij; rw [h]; simp [h]
    · have hij2 : ¬ tc.index = i := fun hh => hij hh.symm
      simp [hij, hij2]
  | none =>
    by_cases hij : tc.index = i
    · subst hij
      rw [findFrag_append_of_none _ _ _ h, h]
      simp [findFrag]
    · rw [if_neg hij]
      cases hm : findFrag i m with
      | some fr => exact findFrag_append_of_some _ _ _ _ hm
      | none =>
        rw [findFrag_append_of_none _ _ _ hm]
        simp [findFrag, hij]

/-- The central invariant: the dict produced by folding a flat delta list,
observed at index `i`, is the sequential application of exactly the deltas
aimed at `i`, in arrival order, to the initial empty fragment (or to the
fragment already present). -/
theorem findFrag_foldl_updateMap (ds : List ToolCallDelta) :
    ∀ (m : List (Nat × Fragment)) (i : Nat),
      findFrag i (ds.foldl updateMap m)
        = match findFrag i m with
          | some fr => some (applyDeltas (deltasFor i ds) fr)
          | none =>
            if deltasFor i ds = [] then none
            else some (applyDeltas (deltasFor i ds) Fragment.init) := by
  induction ds with
  | nil =>
    intro m i
    cases h : findFrag i m <;> simp [deltasFor, applyDeltas, h]
  | cons tc ds ih =>
    intro m i
    rw [List.foldl_cons, ih, findFrag_updateMap]
    by_cases hidx : tc.index = i
    · rw [if_pos hidx]
      have hfor : deltasFor i (tc :: ds) = tc :: deltasFor i ds := by
        simp [deltasFor, List.filter_cons, hidx]
      cases hm : findFrag i m with
      | some fr =>
        simp only [hm, Option.getD_some, hfor, applyDeltas, List.foldl_cons]
      | none =>
        simp only [hm, Option.getD_none, hfor, applyDeltas, List.foldl_cons]
        simp
    · rw [if_neg hidx]
      have hfor : deltasFor i (tc :: ds) = deltasFor i ds := by
        simp [deltasFor, List.filter_cons, hidx]
      rw [hfor]

/-! ## Key uniqueness, membership and ordering of the fragment dict -/

theorem findFrag_none_iff (i : Nat) (m : List (Nat × Fragment)) :
    findFrag i m = none ↔ i ∉ fragKeys m := by
  induction m with
  | nil => simp [findFrag, fragKeys]
  | cons p ps ih =>
    by_cases hp : p.1 = i
    · have hmem : i ∈ fragKeys (p :: ps) := by
        simp [fragKeys, hp.symm]
      have hf : findFrag i (p :: ps) = some p.2 := by simp [findFrag, hp]
      rw [hf]
      simp [hmem]
    · simp only [findFrag, fragKeys, if_neg hp, List.map_cons, List.mem_cons]
      rw [ih]
      constructor
      · intro hni hor
        rcases hor with he | hm
        · exact hp (by rw [he])
        · exact hni hm
      · intro hni hm
        exact hni (Or.inr hm)

theorem fragKeys_updateMap_of_some (m : List (Nat × Fragment)) (tc : ToolCallDelta)
    (fr : Fragment) (h : findFrag tc.index m = some fr) :
    fragKeys (updateMap m tc) = fragKeys m := by
  unfold updateMap
  rw [h]
  show (m.map _).map Prod.fst = m.map Prod.fst
  rw [List.map_map]
  apply List.map_congr_left
  intro p _
  by_cases hp : p.1 = tc.index <;> simp [hp, Function.comp]

theorem fragKeys_updateMap_of_none (m : List (Nat × Fragment)) (tc : ToolCallDelta)
    (h : findFrag tc.index m = none) :
    fragKeys (updateMap m tc) = fragKeys m ++ [tc.index] := by
  unfold updateMap
  rw [h]
  simp [fragKeys]

theorem nodup_fragKeys_updateMap (m : List (Nat × Fragment)) (tc : ToolCallDelta)
    (h : (fragKeys m).Nodup) : (fragKeys (updateMap m tc)).Nodup := by
  cases hf : findFrag tc.index m with
  | some fr => rw [fragKeys_updateMap_of_some m tc fr hf]; exact h
  | none =>
    rw [fragKeys_updateMap_of_none m tc hf]
    have hmem : tc.index ∉ fragKeys m := (findFrag_none_iff _ _).mp hf
    simp [List.nodup_append, h, hmem]

theorem nodup_fragKeys_foldl (ds : List ToolCallDelta) :
    ∀ m : List (Nat × Fragment), (fragKeys m).Nodup →
      (fragKeys (ds.foldl updateMap m)).Nodup := by
  induction ds with
  | nil => intro m h; exact h
  | cons tc ds ih =>
    intro m h
    rw [List.foldl_cons]
    exact ih _ (nodup_fragKeys_updateMap m tc h)

theorem findFrag_some_mem (i : Nat) (m : List (Nat × Fragment)) (fr : Fragment)
    (h : findFrag i m = some fr) : (i, fr) ∈ m := by
  induction m with
  | nil => simp [findFrag] at h
  | cons p ps ih =>
    by_cases hp : p.1 = i
    · simp [findFrag, hp] at h
      rcases p with ⟨pk, pv⟩
      simp at hp
      subst hp
      subst h
      exact List.mem_cons_self _ _
    · simp [findFrag, hp] at h
      exact List.mem_cons_of_mem _ (ih h)

theorem sortFragments_perm (m : List (Nat × Fragment)) :
    List.Perm (sortFragments m) m :=
  List.perm_insertionSort _ m

theorem sortFragments_sorted (m : List (Nat × Fragment)) :
    List.Pairwise (fun p q : Nat × Fragment => p.1 ≤ q.1) (sortFragments m) :=
  List.sorted_insertionSort _ m

/-- The output positions of a dict with unique keys, once sorted, carry
strictly ascending keys. -/
theorem sortFragments_keys_ascending (m : List (Nat × Fragment))
    (h : (fragKeys m).Nodup) :
    List.Pairwise (fun a b : Nat => a < b) ((sortFragments m).map Prod.fst) := by
  have hperm : List.Perm ((sortFragments m).map Prod.fst) (fragKeys m) :=
    (sortFragments_perm m).map Prod.fst
  have hnd : ((sortFragments m).map Prod.fst).Nodup := hperm.nodup_iff.mpr h
  have hle : List.Pairwise (fun a b : Nat => a ≤ b) ((sortFragments m).map Prod.fst) :=
    (sortFragments_sorted m).map Prod.fst (fun a b hab => hab)
  exact (hle.and hnd).imp (fun hab => lt_of_le_of_ne hab.1 hab.2)

/-- A fragment reachable by lookup survives, fully decoded, into the final
tool-call list. -/
theorem mem_toolCalls_of_findFrag (chunks : List Chunk) (i : Nat) (fr : Fragment)
    (h : findFrag i (streamState chunks).tool_calls_by_index = some fr) :
    ToolCallRequest.mk fr.id fr.name (decodeArguments fr.arguments)
      ∈ (consumeStream chunks).tool_calls := by
  have hmem : (i, fr) ∈ (streamState chunks).tool_calls_by_index :=
    findFrag_some_mem _ _ _ h
  have hsorted : (i, fr) ∈ sortFragments (streamState chunks).tool_calls_by_index :=
    (sortFragments_perm _).mem_iff.mpr hmem
  have : mkToolCall (i, fr) ∈ (sortFragments (streamState chunks).tool_calls_by_index).map mkToolCall :=
    List.mem_map_of_mem mkToolCall hsorted
  exact this

/-! ## Decode ladder facts -/

theorem json_parse_empty : Json.parse "" = none := rfl

theorem repairAttempt_empty : repairAttempt "" = none := rfl

theorem json_repair_loads_of_parse (s : String) (v : Json) (h : Json.parse s = some v) :
    json_repair_loads s = v := by
  unfold json_repair_loads
  rw [h]

theorem decodeArguments_of_parse (s : String) (v : Json) (h : Json.parse s = some v) :
    decodeArguments s = v := by
  unfold decodeArguments
  have hs : ¬ s = "" := by
    intro he
    rw [he, json_parse_empty] at h
    exact Option.noConfusion h
  rw [if_neg hs]
  exact json_repair_loads_of_parse s v h

theorem decodeArguments_irrecoverable (s : String)
    (h : s = "" ∨ (Json.parse s = none ∧ repairAttempt s = none)) :
    decodeArguments s = Json.obj [] := by
  unfold decodeArguments
  rcases h with he | ⟨hp, hr⟩
  · rw [if_pos he]
  · by_cases he : s = ""
    · rw [if_pos he]
    · rw [if_neg he]
      unfold json_repair_loads
      rw [hp, hr]

theorem json_repair_loads_irrecoverable (s : String)
    (h : s = "" ∨ (Json.parse s = none ∧ repairAttempt s = none)) :
    json_repair_loads s = Json.obj [] := by
  rcases h with he | ⟨hp, hr⟩
  · rw [he]; rfl
  · unfold json_repair_loads
    rw [hp, hr]

/-! ## Error boundary helpers -/

theorem runEvents_error_of_any (evs : List (Except String Chunk))
    (h : evs.any (fun ev => !ev.isOk) = true) :
    ∀ st : StreamState, ∃ e, runEvents st evs = Except.error e := by
  induction evs with
  | nil => simp at h
  | cons ev rest ih =>
    intro st
    cases ev with
    | error e => exact ⟨e, rfl⟩
    | ok c =>
      have h2 : rest.any (fun ev => !ev.isOk) = true := by
        simpa [Except.isOk, Except.toBool] using h
      exact ih h2 (processChunk st c)

theorem error_prefix_ne (e : String) : ("Error: " ++ e) ≠ "" := by
  intro h
  have hl := congrArg String.length h
  rw [String.length_append] at hl
  have h7 : ("Error: ").length = 7 := rfl
  have h0 : ("" : String).length = 0 := rfl
  rw [h7, h0] at hl
  omega

/-! ## Concatenation helpers -/

theorem concatStrs_append (a b : List String) :
    concatStrs (a ++ b) = concatStrs a ++ concatStrs b := by
  induction a with
  | nil => simp [concatStrs, String.empty_append]
  | cons s ss ih => simp [concatStrs, ih, String.append_assoc]

theorem concatStrs_contentAppend (c : Chunk) :
    concatStrs (contentAppend c) = chunkContentStr c := by
  unfold contentAppend
  by_cases h : chunkContentStr c = ""
  · rw [if_pos h, h]; rfl
  · rw [if_neg h]
    show chunkContentStr c ++ concatStrs [] = chunkContentStr c
    exact String.append_empty _

theorem concatStrs_reasoningAppend (c : Chunk) :
    concatStrs (reasoningAppend c) = chunkReasoningStr c := by
  unfold reasoningAppend
  by_cases h : chunkReasoningStr c = ""
  · rw [if_pos h, h]; rfl
  · rw [if_neg h]
    show chunkReasoningStr c ++ concatStrs [] = chunkReasoningStr c
    exact String.append_empty _

theorem concatStrs_flatten_content (chunks : List Chunk) :
    concatStrs ((chunks.map contentAppend).flatten)
      = concatStrs (chunks.map chunkContentStr) := by
  induction chunks with
  | nil => rfl
  | cons c rest ih =>
    simp only [List.map_cons, List.flatten_cons]
    rw [concatStrs_append, ih, concatStrs_contentAppend]
    rfl

theorem concatStrs_flatten_reasoning (chunks : List Chunk) :
    concatStrs ((chunks.map reasoningAppend).flatten)
      = concatStrs (chunks.map chunkReasoningStr) := by
  induction chunks with
  | nil => rfl
  | cons c rest ih =>
    simp only [List.map_cons, List.flatten_cons]
    rw [concatStrs_append, ih, concatStrs_reasoningAppend]
    rfl

/-! ## Final-state projections -/

theorem streamState_content_parts (chunks : List Chunk) :
    (streamState chunks).content_parts = (chunks.map contentAppend).flatten := by
  have := foldl_content_parts chunks initState
  simpa [streamState, initState] using this

theorem streamState_reasoning_parts (chunks : List Chunk) :
    (streamState chunks).reasoning_parts = (chunks.map reasoningAppend).flatten := by
  have := foldl_reasoning_parts chunks initState
  simpa [streamState, initState] using this

theorem streamState_finish_reason (chunks : List Chunk) :
    (streamState chunks).finish_reason = (chunks.filterMap chunkFinish).getLastD "stop" := by
  have := foldl_finish_reason chunks initState
  simpa [streamState, initState] using this

theorem streamState_tcbi (chunks : List Chunk) :
    (streamState chunks).tool_calls_by_index
      = (streamTCDeltas chunks).foldl updateMap [] := by
  have := foldl_tcbi chunks initState
  simpa [streamState, initState] using this

/-! ## Claim theorems -/

/-- C1: for every invocation of the public entry point `chat`, if the
completion source (or either parsing path) raises any failure, the caller
receives a normalized response whose finish reason is `"error"` and whose
content is a non-empty diagnostic string; `chat` is a total function, so no
exception ever propagates out of it. -/
theorem chat_error_boundary (src : SourceOutcome) (h : sourceRaises src = true) :
    (chat src).finish_reason = "error" ∧
      ∃ s, (chat src).content = some s ∧ s ≠ "" := by
  cases src with
  | failure e => exact ⟨rfl, "Error: " ++ e, rfl, error_prefix_ne e⟩
  | completion r =>
    rcases r with ⟨choices, u⟩
    have hc : choices = [] := List.isEmpty_iff.mp h
    subst hc
    exact ⟨rfl, "Error: " ++ "list index out of range", rfl, error_prefix_ne _⟩
  | stream evs =>
    obtain ⟨e, he⟩ := runEvents_error_of_any evs h initState
    have hcs : consumeStreamE evs = Except.error e := by
      unfold consumeStreamE
      rw [he]
      rfl
    have hchat : chat (SourceOutcome.stream evs) = errorResponse e := by
      show (match consumeStreamE evs with
            | Except.ok resp => resp
            | Except.error err => errorResponse err) = errorResponse e
      rw [hcs]
    rw [hchat]
    exact ⟨rfl, "Error: " ++ e, rfl, error_prefix_ne e⟩

theorem chat_error_boundary_witness :
    sourceRaises (SourceOutcome.failure "Connection refused") = true ∧
      ((chat (SourceOutcome.failure "Connection refused")).finish_reason = "error" ∧
        ∃ s, (chat (SourceOutcome.failure "Connection refused")).content = some s ∧ s ≠ "") :=
  ⟨rfl, chat_error_boundary (SourceOutcome.failure "Connection refused") rfl⟩

/-- C5: for every chunk sequence, the final content is the arrival-order
concatenation of every delta's content substring, and is `none` — not the
empty string — when that concatenation is empty; the reasoning content obeys
the same rule over reasoning substrings. -/
theorem content_concat_arrival_order (chunks : List Chunk) :
    (consumeStream chunks).content
        = emptyToNone (concatStrs (chunks.map chunkContentStr)) ∧
      (consumeStream chunks).reasoning_content
        = emptyToNone (concatStrs (chunks.map chunkReasoningStr)) := by
  constructor
  · show emptyToNone (concatStrs (streamState chunks).content_parts) = _
    rw [streamState_content_parts, concatStrs_flatten_content]
  · show emptyToNone (concatStrs (streamState chunks).reasoning_parts) = _
    rw [streamState_reasoning_parts, concatStrs_flatten_reasoning]

/-- C6: in streaming, the final finish reason is the last non-empty finish
reason carried by any chunk's first choice (an empty or absent one never
erases a captured one) and defaults to `"stop"` when none was ever supplied;
in the non-stream path the finish reason likewise defaults to `"stop"` when
the source omits it (absent or empty). -/
theorem finish_reason_last_nonempty_wins :
    (∀ chunks : List Chunk,
        (consumeStream chunks).finish_reason
          = (chunks.filterMap chunkFinish).getLastD "stop") ∧
      (∀ (msg : Message) (rest : List NChoice) (u : Option Usage),
        (parseCompletion ⟨⟨msg, none⟩ :: rest, u⟩).map LLMResponse.finish_reason
            = Except.ok "stop" ∧
          (parseCompletion ⟨⟨msg, some ""⟩ :: rest, u⟩).map LLMResponse.finish_reason
            = Except.ok "stop") := by
  constructor
  · intro chunks
    show (streamState chunks).finish_reason = _
    exact streamState_finish_reason chunks
  · intro msg rest u
    exact ⟨rfl, rfl⟩

/-- C7: a chunk carrying no choices but a usage object sets the running
usage to exactly that chunk's token counts (never summed with a previous
value) and leaves every other accumulator — content buffer, reasoning
buffer, tool-call fragment map, finish reason — unchanged. -/
theorem usage_only_chunk_sets_usage (st : StreamState) (c : Chunk) (u : Usage)
    (hc : c.choices = []) (hu : c.usage = some u) :
    processChunk st c = { st with usage := some u } := by
  rcases c with ⟨choices, usage⟩
  cases hc
  cases hu
  rfl

theorem usage_only_chunk_sets_usage_witness :
    processChunk initState { choices := [], usage := some ⟨3, 4, 7⟩ }
      = { initState with usage := some ⟨3, 4, 7⟩ } :=
  usage_only_chunk_sets_usage initState _ ⟨3, 4, 7⟩ rfl rfl

/-- C8: a chunk's top-level usage object is honoured only when its choices
are empty — processing a chunk with non-empty choices leaves the running
usage unchanged even if the chunk also carries a usage object. -/
theorem usage_ignored_when_choices_present (st : StreamState) (c : Chunk)
    (h : c.choices ≠ []) : (processChunk st c).usage = st.usage := by
  rw [processChunk_eq]
  have hne : c.choices.isEmpty = false := by
    rcases hl : c.choices with _ | ⟨ch, rest⟩
    · exact absurd hl h
    · simp
  rw [hne]
  simp

theorem usage_ignored_when_choices_present_witness :
    (processChunk initState
        { choices := [{ finish_reason := none, delta := none }], usage := some ⟨1, 1, 2⟩ }).usage
      = initState.usage :=
  usage_ignored_when_choices_present initState _ (by simp)

/-- C9: when the non-stream completion object carries no usage object the
response's usage is absent (not a mapping of zeros), and in streaming, if no
chunk ever carries a usage object, the final usage is likewise absent. -/
theorem usage_absent_when_never_reported :
    (∀ (ch : NChoice) (rest : List NChoice),
        (parseCompletion ⟨ch :: rest, none⟩).map LLMResponse.usage = Except.ok none) ∧
      (∀ chunks : List Chunk, (∀ c ∈ chunks, c.usage = none) →
        (consumeStream chunks).usage = none) := by
  constructor
  · intro ch rest
    rfl
  · intro chunks h
    show (streamState chunks).usage = none
    have := foldl_usage_of_none chunks h initState
    simpa [streamState, initState] using this

theorem usage_absent_when_never_reported_witness :
    (consumeStream
        [{ choices := [{ finish_reason := some "stop",
                         delta := some { content := some "hi", reasoning_content := none,
                                         tool_calls := [] } }],
           usage := none }]).usage = none :=
  usage_absent_when_never_reported.2 _ (by decide)

/-- A lookup hit on the final fragment map is exactly the arrival-order
application of the deltas aimed at that index, starting from the empty
fragment; in particular at least one such delta arrived. -/
theorem findFrag_streamState (chunks : List Chunk) (i : Nat) (fr : Fragment)
    (h : findFrag i (streamState chunks).tool_calls_by_index = some fr) :
    deltasFor i (streamTCDeltas chunks) ≠ [] ∧
      fr = applyDeltas (deltasFor i (streamTCDeltas chunks)) Fragment.init := by
  rw [streamState_tcbi, findFrag_foldl_updateMap] at h
  simp only [show findFrag i ([] : List (Nat × Fragment)) = none from rfl] at h
  by_cases hrel : deltasFor i (streamTCDeltas chunks) = []
  · rw [if_pos hrel] at h
    exact absurd h (by simp)
  · rw [if_neg hrel] at h
    exact ⟨hrel, (Option.some.inj h).symm⟩

/-- C2: a tool call whose fully accumulated argument string is empty, or so
malformed that even the lenient decode ladder recovers no structure, yields
`arguments = \x7b\x7d` (the empty mapping) and still appears in the tool-call list
with its id and name — on both the non-stream and the stream path. -/
theorem malformed_arguments_degrade_to_empty_mapping :
    (∀ (ch : NChoice) (rest : List NChoice) (u : Option Usage) (resp : LLMResponse),
        parseCompletion ⟨ch :: rest, u⟩ = Except.ok resp →
        ∀ tc ∈ ch.message.tool_calls.getD [], ∀ s : String,
          tc.function.arguments = ArgsField.raw s →
          s = "" ∨ (Json.parse s = none ∧ repairAttempt s = none) →
          ToolCallRequest.mk tc.id tc.function.name (Json.obj []) ∈ resp.tool_calls) ∧
      (∀ (chunks : List Chunk) (i : Nat) (fr : Fragment),
        findFrag i (streamState chunks).tool_calls_by_index = some fr →
        fr.arguments = "" ∨
            (Json.parse fr.arguments = none ∧ repairAttempt fr.arguments = none) →
        ToolCallRequest.mk fr.id fr.name (Json.obj [])
          ∈ (consumeStream chunks).tool_calls) := by
  constructor
  · intro ch rest u resp hok tc htc s harg hbad
    have hmk : parseMsgToolCall tc = ToolCallRequest.mk tc.id tc.function.name (Json.obj []) := by
      unfold parseMsgToolCall
      simp only [harg]
      rw [json_repair_loads_irrecoverable s hbad]
    simp only [parseCompletion] at hok
    injection hok with hinj
    rw [← hinj]
    show ToolCallRequest.mk tc.id tc.function.name (Json.obj [])
      ∈ (ch.message.tool_calls.getD []).map parseMsgToolCall
    rw [← hmk]
    exact List.mem_map_of_mem parseMsgToolCall htc
  · intro chunks i fr hfind hbad
    have hmem := mem_toolCalls_of_findFrag chunks i fr hfind
    rwa [decodeArguments_irrecoverable _ hbad] at hmem

theorem malformed_arguments_degrade_to_empty_mapping_witness :
    ToolCallRequest.mk "call_1" "f" (Json.obj [])
      ∈ (consumeStream malformedArgsChunks).tool_calls :=
  malformed_arguments_degrade_to_empty_mapping.2 malformedArgsChunks 0
    ⟨"call_1", "f", "\x7b\"a\":"⟩ rfl (Or.inr ⟨rfl, rfl⟩)

/-- C3: for every chunk sequence, the final tool-call list is the fragment
map sorted by ascending fragment index (finalized by the assembler), and the
sorted indices are strictly ascending — output order is governed by index,
not by chunk arrival order. -/
theorem tool_calls_ascending_by_index (chunks : List Chunk) :
    (consumeStream chunks).tool_calls
        = (sortFragments (streamState chunks).tool_calls_by_index).map mkToolCall ∧
      List.Pairwise (fun a b : Nat => a < b)
        ((sortFragments (streamState chunks).tool_calls_by_index).map Prod.fst) := by
  refine ⟨rfl, ?_⟩
  apply sortFragments_keys_ascending
  rw [streamState_tcbi]
  exact nodup_fragKeys_foldl _ [] (by simp [fragKeys])

/-- C4: a tool call whose argument string is well-formed JSON decodes to
exactly the strict structured decode of that string — whether the string
arrived whole in a non-stream completion object, or was split across
arbitrarily many chunk boundaries and reassembled by arrival-order
concatenation in the stream aggregator. -/
theorem wellformed_arguments_equal_strict_decode :
    (∀ (ch : NChoice) (rest : List NChoice) (u : Option Usage) (resp : LLMResponse),
        parseCompletion ⟨ch :: rest, u⟩ = Except.ok resp →
        ∀ tc ∈ ch.message.tool_calls.getD [], ∀ (s : String) (v : Json),
          tc.function.arguments = ArgsField.raw s → Json.parse s = some v →
          ToolCallRequest.mk tc.id tc.function.name v ∈ resp.tool_calls) ∧
      (∀ (chunks : List Chunk) (i : Nat) (fr : Fragment),
        findFrag i (streamState chunks).tool_calls_by_index = some fr →
        fr.arguments = concatStrs ((deltasFor i (streamTCDeltas chunks)).map tcArgStr) ∧
          ∀ v : Json, Json.parse fr.arguments = some v →
            ToolCallRequest.mk fr.id fr.name v ∈ (consumeStream chunks).tool_calls) := by
  constructor
  · intro ch rest u resp hok tc htc s v harg hv
    have hmk : parseMsgToolCall tc = ToolCallRequest.mk tc.id tc.function.name v := by
      unfold parseMsgToolCall
      simp only [harg]
      rw [json_repair_loads_of_parse s v hv]
    simp only [parseCompletion] at hok
    injection hok with hinj
    rw [← hinj]
    show ToolCallRequest.mk tc.id tc.function.name v
      ∈ (ch.message.tool_calls.getD []).map parseMsgToolCall
    rw [← hmk]
    exact List.mem_map_of_mem parseMsgToolCall htc
  · intro chunks i fr hfind
    obtain ⟨hrel, hfr⟩ := findFrag_streamState chunks i fr hfind
    constructor
    · rw [hfr, applyDeltas_arguments]
      show ("" : String) ++ _ = _
      exact String.empty_append _
    · intro v hv
      have hmem := mem_toolCalls_of_findFrag chunks i fr hfind
      rwa [decodeArguments_of_parse _ _ hv] at hmem

theorem wellformed_arguments_equal_strict_decode_witness :
    ToolCallRequest.mk "call_0" "f" (Json.obj [("a", Json.num 1), ("b", Json.num 2)])
      ∈ (consumeStream splitArgsChunks).tool_calls :=
  (wellformed_arguments_equal_strict_decode.2 splitArgsChunks 0
      ⟨"call_0", "f", "\x7b\"a\": 1,\"b\": 2\x7d"⟩ rfl).2
    (Json.obj [("a", Json.num 1), ("b", Json.num 2)]) rfl

/-- C10: a streamed tool-call fragment whose id (resp. name) is never
supplied by any chunk finalizes with the empty string as id (resp. name) —
the engine never fabricates an identifier and never drops the call. -/
theorem unsupplied_id_name_stay_empty (chunks : List Chunk) (i : Nat) (fr : Fragment)
    (hfind : findFrag i (streamState chunks).tool_calls_by_index = some fr) :
    ((deltasFor i (streamTCDeltas chunks)).filterMap tcIdUpdate = [] → fr.id = "") ∧
      ((deltasFor i (streamTCDeltas chunks)).filterMap tcNameUpdate = [] → fr.name = "") ∧
      ToolCallRequest.mk fr.id fr.name (decodeArguments fr.arguments)
        ∈ (consumeStream chunks).tool_calls := by
  obtain ⟨hrel, hfr⟩ := findFrag_streamState chunks i fr hfind
  refine ⟨?_, ?_, mem_toolCalls_of_findFrag chunks i fr hfind⟩
  · intro h
    rw [hfr, applyDeltas_id, h]
    rfl
  · intro h
    rw [hfr, applyDeltas_name, h]
    rfl

theorem unsupplied_id_name_stay_empty_witness :
    ToolCallRequest.mk "" "" (decodeArguments "\x7b\x7d")
      ∈ (consumeStream anonymousCallChunks).tool_calls :=
  (unsupplied_id_name_stay_empty anonymousCallChunks 5 ⟨"", "", "\x7b\x7d"⟩ rfl).2.2

end Nanobot
